import Mathlib

/-!
A verification model of the lupo trade-ledger store.

`src/main.rs` is the CLI shim of the program: it dispatches `init`,
`check`, `trades` and `port` to the store operations `Store::new`,
`Store::open`, `Store::check`, `Store::trades` and `Store::port`, prints
the returned lines on standard output and maps a returned error to exit
code 1.  The store library itself is not among the visible sources, so
its operations are modelled from the specification; the shim (`main` and
`run`) is embedded from `src/main.rs` directly.
-/

namespace Lupo

/-- Modelled from the spec: the buy/sell side of a trade record. -/
inductive Side where
  | buy
  | sell
deriving DecidableEq, Repr

/-- Modelled from the spec: a `StockRecord` of the Registry — unique
symbol (key), display name, optional metadata (currency). -/
structure StockRecord where
  symbol : String
  name : String
  currency : Option String
deriving DecidableEq, Repr

/-- Modelled from the spec: a `TradeRecord` of the Ledger — stock symbol,
side, integer quantity (valid when > 0), price as a scaled decimal
integer (valid when ≥ 0), and timestamp. -/
structure TradeRecord where
  symbol : String
  side : Side
  quantity : Int
  price : Int
  timestamp : Nat
deriving DecidableEq, Repr

/-- The in-memory Registry: the parsed stock list. -/
abbrev Registry := List StockRecord

/-- The in-memory Ledger: the parsed trade sequence in on-disk order. -/
abbrev Ledger := List TradeRecord

/-- Modelled from the spec: Registry lookup of a symbol. -/
def lookupStock (reg : Registry) (sym : String) : Option StockRecord :=
  reg.find? (fun r => r.symbol == sym)

/-- Modelled from the spec: per-record Ledger validation — the symbol
resolves in the Registry, quantity > 0 and price ≥ 0. -/
def tradeValid (reg : Registry) (t : TradeRecord) : Bool :=
  (lookupStock reg t.symbol).isSome && decide (0 < t.quantity) && decide (0 ≤ t.price)

/-- Modelled from the spec: per-record Registry validation — the record is
well-formed (non-empty symbol) and its symbol is unique in the Registry. -/
def stockValid (reg : Registry) (r : StockRecord) : Bool :=
  decide (r.symbol ≠ "") && (reg.countP (fun s => s.symbol == r.symbol) == 1)

/-- The Registry invariant stated by the spec's data model: symbols are
non-empty and unique within the Registry. -/
def registryWellFormed (reg : Registry) : Prop :=
  (reg.map fun r => r.symbol).Nodup ∧ ∀ r ∈ reg, r.symbol ≠ ""

instance (reg : Registry) : Decidable (registryWellFormed reg) := by
  unfold registryWellFormed
  infer_instance

/-- The quantity of a trade signed by its side: buys add, sells subtract. -/
def signedQty (t : TradeRecord) : Int :=
  match t.side with
  | Side.buy => t.quantity
  | Side.sell => -t.quantity

/-- Net quantity of a sequence of trades. -/
def netQty (ts : List TradeRecord) : Int :=
  (ts.map signedQty).sum

/-- Modelled from the spec: the replay order — timestamp order with ties
broken by on-disk order.  Trades are paired with their on-disk index and
compared lexicographically on (timestamp, index). -/
abbrev replayLEP (p q : Nat × TradeRecord) : Prop :=
  p.2.timestamp < q.2.timestamp ∨ (p.2.timestamp = q.2.timestamp ∧ p.1 ≤ q.1)

instance : IsTotal (Nat × TradeRecord) replayLEP :=
  ⟨fun p q => by
    rcases Nat.lt_trichotomy p.2.timestamp q.2.timestamp with h | h | h
    · exact Or.inl (Or.inl h)
    · rcases Nat.le_total p.1 q.1 with h' | h'
      · exact Or.inl (Or.inr ⟨h, h'⟩)
      · exact Or.inr (Or.inr ⟨h.symm, h'⟩)
    · exact Or.inr (Or.inl h)⟩

instance : IsTrans (Nat × TradeRecord) replayLEP :=
  ⟨fun p q r hpq hqr => by
    rcases hpq with h1 | ⟨h1, h1'⟩ <;> rcases hqr with h2 | ⟨h2, h2'⟩
    · exact Or.inl (Nat.lt_trans h1 h2)
    · exact Or.inl (h2 ▸ h1)
    · exact Or.inl (h1 ▸ h2)
    · exact Or.inr ⟨h1.trans h2, Nat.le_trans h1' h2'⟩⟩

/-- The trades of a symbol paired with their on-disk indices. -/
def groupFor (led : Ledger) (sym : String) : List (Nat × TradeRecord) :=
  led.enum.filter (fun p => p.2.symbol == sym)

/-- Modelled from the spec: a stock's trades arranged for replay, in
timestamp order with ties broken by on-disk order. -/
def replayOrder (led : Ledger) (sym : String) : List (Nat × TradeRecord) :=
  List.insertionSort replayLEP (groupFor led sym)

/-- Modelled from the spec: replay of one stock's trades accumulating the
running held quantity; returns the on-disk indices of the sells that drive
the running held quantity negative (oversells). -/
def replayFlags (held : Int) : List (Nat × TradeRecord) → List Nat
  | [] => []
  | (i, t) :: rest =>
    match t.side with
    | Side.buy => replayFlags (held + t.quantity) rest
    | Side.sell =>
      (if held - t.quantity < 0 then [i] else []) ++ replayFlags (held - t.quantity) rest

/-- The distinct symbols occurring in a ledger. -/
def ledgerSymbols (led : Ledger) : List String :=
  (led.map fun t => t.symbol).dedup

/-- Modelled from the spec: all on-disk indices flagged as oversell by the
per-stock replay. -/
def oversoldIdx (led : Ledger) : List Nat :=
  (ledgerSymbols led).flatMap fun s => replayFlags 0 (replayOrder led s)

/-- Modelled from the spec: the Integrity Checker counts — the number of
ledger records that validate (symbol resolves, quantity > 0, price ≥ 0,
not flagged as oversell) and the number of registry records that validate
(well-formed, unique symbol). -/
def checkCounts (reg : Registry) (led : Ledger) : Nat × Nat :=
  ((led.enum.filter fun p =>
      tradeValid reg p.2 && !((oversoldIdx led).contains p.1)).length,
   (reg.filter fun r => stockValid reg r).length)

/-- Modelled from the spec: a stored section of the data directory.  The
exact encoding is an implementation choice; the model keeps only what the
spec fixes: a section is either structurally unreadable/unparsable, or it
parses into a record sequence. -/
inductive StoredFile (α : Type) where
  | corrupt : StoredFile α
  | records : List α → StoredFile α
deriving DecidableEq

/-- Modelled from the spec: the persisted layout — a Registry section and
a Ledger section inside the data directory. -/
structure RawStore where
  stocksFile : StoredFile StockRecord
  tradesFile : StoredFile TradeRecord
deriving DecidableEq

/-- Modelled from the spec: error kinds reported by the store. -/
inductive LupoError where
  | alreadyInitialized
  | notInitialized
  | corruptStore
deriving DecidableEq, Repr

/-- The fresh empty state written by `New`. -/
def emptyRaw : RawStore :=
  { stocksFile := StoredFile.records [], tradesFile := StoredFile.records [] }

/-- Modelled from the spec: `New(path, force)` — if the directory is
absent it is created with an empty Registry and Ledger; if present and
`force = false` it fails with `AlreadyInitialized`; if `force = true` the
existing contents are cleared and reinitialized. -/
def newStore (existing : Option RawStore) (force : Bool) : Except LupoError RawStore :=
  match existing with
  | none => Except.ok emptyRaw
  | some _ => if force then Except.ok emptyRaw else Except.error LupoError.alreadyInitialized

/-- Modelled from the spec: loading one stored section; structural
corruption is a hard failure. -/
def loadFile {α : Type} : StoredFile α → Except LupoError (List α)
  | StoredFile.corrupt => Except.error LupoError.corruptStore
  | StoredFile.records l => Except.ok l

/-- Modelled from the spec: `Open(path)` — fails if the directory is
absent or a stored section is unparsable, otherwise loads Registry and
Ledger. -/
def openStore (existing : Option RawStore) : Except LupoError (Registry × Ledger) :=
  match existing with
  | none => Except.error LupoError.notInitialized
  | some raw => do
    let reg ← loadFile raw.stocksFile
    let led ← loadFile raw.tradesFile
    pure (reg, led)

/-- Modelled from the spec: `Check()` — structural parse failures abort
the whole call; otherwise the Integrity Checker counts are returned. -/
def checkStore (raw : RawStore) : Except LupoError (Nat × Nat) := do
  let reg ← loadFile raw.stocksFile
  let led ← loadFile raw.tradesFile
  pure (checkCounts reg led)

/-- Case-sensitive substring containment on the underlying characters. -/
def containsSub (hay sub : String) : Bool :=
  decide (sub.toList <:+: hay.toList)

/-- Modelled from the spec: the display name a ledger record resolves to,
joining the Ledger with the Registry; a record whose symbol is unknown
keeps the symbol itself as its display name. -/
def displayName (reg : Registry) (t : TradeRecord) : String :=
  match lookupStock reg t.symbol with
  | some r => r.name
  | none => t.symbol

/-- Modelled from the spec: `Trades(name_substring?)` — with no filter all
records in Ledger order; with a filter only the records whose resolved
display name contains it as a substring. -/
def tradesQuery (reg : Registry) (led : Ledger) (filt : Option String) : List TradeRecord :=
  match filt with
  | none => led
  | some s => led.filter (fun t => containsSub (displayName reg t) s)

/-- A derived position: symbol and net quantity. -/
structure Position where
  symbol : String
  qty : Int
deriving DecidableEq, Repr

/-- The trades of one symbol in on-disk order. -/
def tradesFor (led : Ledger) (sym : String) : List TradeRecord :=
  led.filter (fun t => t.symbol == sym)

/-- Lexicographic comparison of character sequences by code point, the
order in which `port` output is sorted. -/
def charListLE : List Char → List Char → Bool
  | [], _ => true
  | _ :: _, [] => false
  | a :: as, b :: bs =>
    if a < b then true
    else if b < a then false
    else charListLE as bs

/-- Lexicographic string comparison (agrees with `≤` on `String`). -/
def strLE (a b : String) : Bool :=
  charListLE a.toList b.toList

/-- Ordering of positions by symbol. -/
abbrev symLEP (p q : Position) : Prop :=
  strLE p.symbol q.symbol = true

/-- Modelled from the spec: the running fold of one stock's replay-ordered
trades — buys increase the net quantity, sells decrease it. -/
def foldQty (ts : List TradeRecord) : Int :=
  ts.foldl (fun acc t => acc + signedQty t) 0

/-- Modelled from the spec: `Port()` — groups the full Ledger by symbol,
folds each group in timestamp order (ties: on-disk order), omits symbols
whose net quantity is exactly zero, and sorts the output by symbol
ascending. -/
def port (led : Ledger) : List Position :=
  List.insertionSort symLEP
    ((ledgerSymbols led).filterMap fun s =>
      let n := foldQty ((replayOrder led s).map fun p => p.2)
      if n = 0 then none else some { symbol := s, qty := n })

/-- The reference fold described by the claim: per symbol the plain signed
sum of its trades' quantities, nonzero positions only, sorted by symbol
ascending. -/
def portReference (led : Ledger) : List Position :=
  List.insertionSort symLEP
    ((ledgerSymbols led).filterMap fun s =>
      let n := netQty (tradesFor led s)
      if n = 0 then none else some { symbol := s, qty := n })

/-- The subcommands dispatched by `run` in `src/main.rs`. -/
inductive SubCommand where
  | init (force : Bool)
  | check
  | trades (nameSub : Option String)
  | port
deriving DecidableEq

/-- One line printed to standard output by `run`: each constructor records
which `println!` of `src/main.rs` produced it and the data it prints. -/
inductive OutLine where
  | dirLine : OutLine
  | tradeCountLine : Nat → OutLine
  | stockCountLine : Nat → OutLine
  | tradeLine : TradeRecord → OutLine
  | portLine : Position → OutLine
deriving DecidableEq

/-- Embedded from `run` in `src/main.rs` lines 58–83: dispatch on the
subcommand; each arm creates or opens the store, runs the operation, and
only from a successful result produces its standard-output lines. -/
def runCmd (disk : Option RawStore) (cmd : SubCommand) : Except LupoError (List OutLine) :=
  match cmd with
  | SubCommand.init force => do
    let _ ← newStore disk force
    pure [OutLine.dirLine]
  | SubCommand.check => do
    let st ← openStore disk
    let c := checkCounts st.1 st.2
    pure [OutLine.tradeCountLine c.1, OutLine.stockCountLine c.2]
  | SubCommand.trades nameSub => do
    let st ← openStore disk
    pure ((tradesQuery st.1 st.2 nameSub).map OutLine.tradeLine)
  | SubCommand.port => do
    let st ← openStore disk
    pure ((port st.2).map OutLine.portLine)

/-- Embedded from `main` in `src/main.rs`: an error as the CLI boundary
sees it — the top-level message, the chain of lower-level causes (the
error iterator after `skip(1)`), and an optional backtrace. -/
structure CoreError where
  msg : String
  causes : List String
  backtrace : Option String

/-- Embedded from `main` in `src/main.rs` lines 26–36: the diagnostic text
built for a failed run — the message, one tab-indented `caused by` line
per cause, and the backtrace when present. -/
def renderError (e : CoreError) : String :=
  let s := e.causes.foldl (fun acc c => acc ++ "\n\tcaused by: " ++ c) e.msg
  match e.backtrace with
  | some b => s ++ "\n\tbacktrace:\n" ++ b
  | none => s

/-- Embedded from `main` in `src/main.rs` lines 23–42: the exit code and
the diagnostic-stream message of the process, from the result of `run`. -/
def mainExit {α : Type} (r : Except CoreError α) : Nat × Option String :=
  match r with
  | Except.ok _ => (0, none)
  | Except.error e => (1, some (renderError e))

/-- Embedded from `main` and `run` in `src/main.rs`: the exit code and the
standard-output lines of one invocation. -/
def execute (disk : Option RawStore) (cmd : SubCommand) : Nat × List OutLine :=
  match runCmd disk cmd with
  | Except.ok lines => (0, lines)
  | Except.error _ => (1, [])

/-- The diagnostic text described by the spec for the cause chain: one
tab-indented `caused by` line per lower-level cause. -/
def causeLines : List String → String
  | [] => ""
  | c :: cs => "\n\tcaused by: " ++ c ++ causeLines cs

/-- A small well-formed Registry used as concrete test data. -/
def regEx : Registry :=
  [{ symbol := "AAPL", name := "Apple Inc.", currency := none },
   { symbol := "MSFT", name := "Microsoft", currency := none }]

/-- The spec's example Ledger: buy 10 AAPL@100, sell 4 AAPL@110, buy 2
MSFT@50 (timestamps in on-disk order). -/
def ledEx : Ledger :=
  [{ symbol := "AAPL", side := Side.buy, quantity := 10, price := 100, timestamp := 0 },
   { symbol := "AAPL", side := Side.sell, quantity := 4, price := 110, timestamp := 1 },
   { symbol := "MSFT", side := Side.buy, quantity := 2, price := 50, timestamp := 2 }]

/-- A one-record ledger whose only trade is a per-record-valid sell that
oversells (no holdings to sell from). -/
def ledOversell : Ledger :=
  [{ symbol := "AAPL", side := Side.sell, quantity := 1, price := 100, timestamp := 0 }]

/-- A trade whose symbol resolves in no Registry used here. -/
def tradeUnknown : TradeRecord :=
  { symbol := "ZZZ", side := Side.buy, quantity := 1, price := 0, timestamp := 9 }

theorem charListLE_eq_true_iff : ∀ as bs : List Char, charListLE as bs = true ↔ ¬ bs < as
  | [], bs =>
    iff_of_true rfl (List.Lex.not_nil_right _ _)
  | a :: as, [] =>
    iff_of_false (by simp [charListLE]) (fun h => h List.Lex.nil)
  | a :: as, b :: bs => by
    rw [charListLE]
    by_cases hab : a < b
    · rw [if_pos hab]
      refine iff_of_true rfl (fun h => ?_)
      cases h with
      | cons h3 => exact lt_irrefl _ hab
      | rel h' => exact lt_asymm hab h'
    · rw [if_neg hab]
      by_cases hba : b < a
      · rw [if_pos hba]
        exact iff_of_false (by simp) (fun h => h (List.Lex.rel hba))
      · rw [if_neg hba]
        have hEq : a = b := le_antisymm (not_lt.mp hba) (not_lt.mp hab)
        subst hEq
        rw [charListLE_eq_true_iff as bs]
        exact (not_congr List.Lex.cons_iff).symm

theorem strLE_iff_le (a b : String) : strLE a b = true ↔ a ≤ b := by
  rw [strLE, charListLE_eq_true_iff, String.le_iff_toList_le, ← not_lt]

instance : IsTotal Position symLEP :=
  ⟨fun p q => by
    rw [symLEP, symLEP, strLE_iff_le, strLE_iff_le]
    exact le_total p.symbol q.symbol⟩

instance : IsTrans Position symLEP :=
  ⟨fun p q r h h' => by
    rw [symLEP, strLE_iff_le] at h h' ⊢
    exact le_trans h h'⟩

theorem foldQty_go (ts : List TradeRecord) : ∀ acc : Int,
    ts.foldl (fun a t => a + signedQty t) acc = acc + netQty ts := by
  induction ts with
  | nil => intro acc; simp [netQty]
  | cons t ts ih =>
    intro acc
    simp only [List.foldl_cons, netQty, List.map_cons, List.sum_cons, ih]
    ring

theorem foldQty_eq_netQty (ts : List TradeRecord) : foldQty ts = netQty ts := by
  rw [foldQty, foldQty_go]
  simp

theorem netQty_perm {l₁ l₂ : List TradeRecord} (h : l₁.Perm l₂) : netQty l₁ = netQty l₂ :=
  (h.map signedQty).sum_eq

theorem map_snd_groupFor (led : Ledger) (sym : String) :
    (groupFor led sym).map Prod.snd = tradesFor led sym := by
  rw [groupFor, tradesFor]
  have hp : (fun p : Nat × TradeRecord => p.2.symbol == sym)
      = ((fun t : TradeRecord => t.symbol == sym) ∘ Prod.snd) := rfl
  rw [hp, ← List.filter_map, List.enum_eq_enumFrom, List.enumFrom_map_snd]

theorem replay_perm_tradesFor (led : Ledger) (sym : String) :
    ((replayOrder led sym).map Prod.snd).Perm (tradesFor led sym) :=
  map_snd_groupFor led sym ▸ ((List.perm_insertionSort replayLEP (groupFor led sym)).map Prod.snd)

/-- C3: `Trades(None)` returns all trade records in the original on-disk
order, and for every filter string the query returns exactly the
subsequence of records whose resolved display name contains the filter as
a (case-sensitive) substring, in the same order. -/
theorem trades_query_spec (reg : Registry) (led : Ledger) :
    tradesQuery reg led none = led
    ∧ ∀ s, tradesQuery reg led (some s) = led.filter (fun t => containsSub (displayName reg t) s)
      ∧ (tradesQuery reg led (some s)).Sublist led
      ∧ ∀ t, (t ∈ tradesQuery reg led (some s) ↔
          t ∈ led ∧ s.toList <:+: (displayName reg t).toList) := by
  refine ⟨rfl, fun s => ⟨rfl, List.filter_sublist led, fun t => ?_⟩⟩
  rw [tradesQuery, List.mem_filter, containsSub, decide_eq_true_iff]

/-- C4: on an already-initialized data directory, `New` without force
fails with `AlreadyInitialized`, and `New` with force succeeds and resets
to the fresh empty state. -/
theorem new_on_initialized (raw : RawStore) :
    newStore (some raw) false = Except.error LupoError.alreadyInitialized
    ∧ newStore (some raw) true = Except.ok emptyRaw :=
  ⟨rfl, rfl⟩

/-- C5: a store just created by `New` on a fresh directory opens to the
empty Registry and the empty Ledger (zero stocks, zero trades). -/
theorem open_after_new (force : Bool) (raw' : RawStore)
    (h : newStore none force = Except.ok raw') :
    openStore (some raw') = Except.ok (([] : Registry), ([] : Ledger)) := by
  have hraw : raw' = emptyRaw := by
    cases h
    rfl
  subst hraw
  rfl

theorem open_after_new_witness :
    openStore (some emptyRaw) = Except.ok (([] : Registry), ([] : Ledger)) :=
  open_after_new false emptyRaw rfl

theorem foldl_causes (cs : List String) : ∀ s : String,
    cs.foldl (fun acc c => acc ++ "\n\tcaused by: " ++ c) s = s ++ causeLines cs := by
  induction cs with
  | nil => intro s; simp [causeLines]
  | cons c cs ih =>
    intro s
    simp only [List.foldl_cons, causeLines, ih]
    simp [String.append_assoc]

/-- C9: the process exits with code 0 when the selected operation
succeeds; on a core-reported failure it exits with code 1 after emitting
to the diagnostic stream the error message, one `caused by` line per
lower-level cause, and the backtrace when present. -/
theorem main_exit_codes :
    (∀ r : Except CoreError Unit, r.isOk = true → mainExit r = (0, none))
    ∧ ∀ e : CoreError,
        mainExit (Except.error e : Except CoreError Unit)
          = (1, some (e.msg ++ causeLines e.causes
              ++ match e.backtrace with
                 | some b => "\n\tbacktrace:\n" ++ b
                 | none => "")) := by
  constructor
  · intro r h
    cases r with
    | ok a => rfl
    | error e => exact nomatch h
  · intro e
    have h1 : mainExit (Except.error e : Except CoreError Unit) = (1, some (renderError e)) := rfl
    rw [h1]
    simp only [renderError]
    rw [foldl_causes]
    cases hb : e.backtrace with
    | none => simp
    | some b => simp [String.append_assoc]

theorem main_exit_codes_witness :
    mainExit (Except.ok () : Except CoreError Unit) = (0, none) :=
  main_exit_codes.1 (Except.ok ()) rfl

/-- C10: for the check, trades and port subcommands, standard output stays
empty unless `Open` and the operation both succeed: a failed run exits
with code 1 and no result lines, a successful run exits with code 0 and
prints exactly the operation's lines. -/
theorem run_prints_only_on_success (disk : Option RawStore) (cmd : SubCommand)
    (hcmd : cmd = SubCommand.check ∨ (∃ s, cmd = SubCommand.trades s) ∨ cmd = SubCommand.port) :
    ((openStore disk).isOk = false → execute disk cmd = (1, []))
    ∧ (∀ e, runCmd disk cmd = Except.error e → execute disk cmd = (1, []))
    ∧ (∀ lines, runCmd disk cmd = Except.ok lines → execute disk cmd = (0, lines)) := by
  refine ⟨?_, fun e he => by simp [execute, he], fun lines hl => by simp [execute, hl]⟩
  intro hopen
  have hopen' : ∃ e, openStore disk = Except.error e := by
    cases h : openStore disk with
    | ok st => rw [h] at hopen; exact nomatch hopen
    | error e => exact ⟨e, rfl⟩
  obtain ⟨e, he⟩ := hopen'
  rcases hcmd with h | ⟨s, h⟩ | h <;> subst h <;>
    simp [execute, runCmd, he, Except.bind]

theorem run_prints_only_on_success_witness :
    execute none SubCommand.check = (1, []) :=
  (run_prints_only_on_success none SubCommand.check (Or.inl rfl)).1 rfl

theorem tradeValid_eq_true_of (reg : Registry) (t : TradeRecord)
    (h1 : (lookupStock reg t.symbol).isSome = true) (h2 : 0 < t.quantity) (h3 : 0 ≤ t.price) :
    tradeValid reg t = true := by
  rw [tradeValid, Bool.and_eq_true, Bool.and_eq_true]
  exact ⟨⟨h1, decide_eq_true h2⟩, decide_eq_true h3⟩

theorem countP_symbol_eq_one {reg : Registry} {r : StockRecord}
    (hnd : (reg.map fun s => s.symbol).Nodup) (hr : r ∈ reg) :
    reg.countP (fun s => s.symbol == r.symbol) = 1 := by
  induction reg with
  | nil => exact absurd hr (List.not_mem_nil r)
  | cons a l ih =>
    rw [List.map_cons, List.nodup_cons] at hnd
    obtain ⟨hna, hndl⟩ := hnd
    rw [List.countP_cons]
    rcases List.mem_cons.mp hr with rfl | hrl
    · have h0 : l.countP (fun s => s.symbol == r.symbol) = 0 := by
        rw [List.countP_eq_zero]
        intro x hx hbx
        rw [beq_iff_eq] at hbx
        exact hna (hbx ▸ List.mem_map_of_mem (fun s => s.symbol) hx)
      rw [h0]
      simp
    · have hne : (a.symbol == r.symbol) = false := by
        rw [beq_eq_false_iff_ne]
        intro hEq
        exact hna (hEq ▸ List.mem_map_of_mem (fun s => s.symbol) hrl)
      rw [ih hndl hrl, hne]
      simp

theorem stockValid_of_wf {reg : Registry} {r : StockRecord}
    (h : registryWellFormed reg) (hr : r ∈ reg) : stockValid reg r = true := by
  obtain ⟨hnd, hne⟩ := h
  rw [stockValid, Bool.and_eq_true]
  refine ⟨decide_eq_true (hne r hr), ?_⟩
  rw [countP_symbol_eq_one hnd hr]
  rfl

theorem checkCounts_fst_of_valid {reg : Registry} {led : Ledger}
    (htr : ∀ t ∈ led, tradeValid reg t = true) (hov : oversoldIdx led = []) :
    (checkCounts reg led).1 = led.length := by
  show (led.enum.filter fun p =>
      tradeValid reg p.2 && !((oversoldIdx led).contains p.1)).length = led.length
  have hall : led.enum.filter (fun p =>
      tradeValid reg p.2 && !((oversoldIdx led).contains p.1)) = led.enum := by
    rw [List.filter_eq_self]
    intro p hp
    rw [Bool.and_eq_true]
    exact ⟨htr p.2 (List.snd_mem_of_mem_enum hp), by rw [hov]; rfl⟩
  rw [hall, List.enum_eq_enumFrom]
  exact List.enumFrom_length

theorem checkCounts_snd_of_wf {reg : Registry} (led : Ledger)
    (h : registryWellFormed reg) : (checkCounts reg led).2 = reg.length := by
  show (reg.filter fun r => stockValid reg r).length = reg.length
  have hall : reg.filter (fun r => stockValid reg r) = reg := by
    rw [List.filter_eq_self]
    intro r hr
    exact stockValid_of_wf h hr
  rw [hall]

/-- C1 (amended): for a Registry satisfying its invariant and a Ledger in
which every trade resolves, has quantity > 0 and price ≥ 0, and whose
replay flags no oversell, `Check()` succeeds and returns exactly
(length of the Ledger, length of the Registry). -/
theorem check_valid_counts (reg : Registry) (led : Ledger)
    (hreg : registryWellFormed reg)
    (htr : ∀ t ∈ led, (lookupStock reg t.symbol).isSome = true ∧ 0 < t.quantity ∧ 0 ≤ t.price)
    (hov : oversoldIdx led = []) :
    checkStore { stocksFile := StoredFile.records reg, tradesFile := StoredFile.records led }
      = Except.ok (led.length, reg.length) := by
  have htr' : ∀ t ∈ led, tradeValid reg t = true := fun t ht =>
    tradeValid_eq_true_of reg t (htr t ht).1 (htr t ht).2.1 (htr t ht).2.2
  have hs : checkStore { stocksFile := StoredFile.records reg, tradesFile := StoredFile.records led }
      = Except.ok (checkCounts reg led) := rfl
  rw [hs]
  have f1 := checkCounts_fst_of_valid htr' hov
  have f2 := checkCounts_snd_of_wf led hreg
  rw [show checkCounts reg led = (led.length, reg.length) from Prod.ext f1 f2]

theorem check_valid_counts_witness :
    checkStore { stocksFile := StoredFile.records regEx, tradesFile := StoredFile.records ledEx }
      = Except.ok (3, 2) :=
  check_valid_counts regEx ledEx (by decide) (by decide) (by decide)

/-- C1 as stated fails on the model: `ledOversell` is a ledger whose only
trade resolves, has quantity > 0 and price ≥ 0, over a well-formed
Registry, yet `Check()` returns (0, 2) instead of
(length of the Ledger, length of the Registry) = (1, 2), because the sell
is flagged as an oversell by the replay and semantic inconsistencies
reduce the validated counts. -/
theorem check_valid_counts_cx :
    registryWellFormed regEx
    ∧ (∀ t ∈ ledOversell,
        (lookupStock regEx t.symbol).isSome = true ∧ 0 < t.quantity ∧ 0 ≤ t.price)
    ∧ checkStore { stocksFile := StoredFile.records regEx,
                   tradesFile := StoredFile.records ledOversell }
        = Except.ok (0, 2)
    ∧ checkCounts regEx ledOversell ≠ (ledOversell.length, regEx.length) :=
  ⟨by decide, by decide, rfl, by decide⟩

theorem foldQty_replay_eq_netQty (led : Ledger) (s : String) :
    foldQty ((replayOrder led s).map fun p => p.2) = netQty (tradesFor led s) := by
  rw [foldQty_eq_netQty]
  exact netQty_perm (replay_perm_tradesFor led s)

/-- C2: `Port()` equals the reference fold — per symbol the signed sum of
its trades' quantities (buys plus, sells minus, the fold order immaterial
to the net), zero-net symbols omitted, output sorted by symbol ascending
— and on the spec's example ledger it returns [AAPL: 6, MSFT: 2]. -/
theorem port_matches_reference :
    (∀ led : Ledger,
      port led = portReference led
      ∧ (port led).Pairwise (fun a b => a.symbol ≤ b.symbol)
      ∧ (∀ p ∈ port led, p.qty = netQty (tradesFor led p.symbol) ∧ p.qty ≠ 0
          ∧ p.symbol ∈ led.map (fun t => t.symbol))
      ∧ (∀ s, s ∈ led.map (fun t => t.symbol) → netQty (tradesFor led s) ≠ 0 →
          ∃ p, p ∈ port led ∧ p.symbol = s ∧ p.qty = netQty (tradesFor led s)))
    ∧ port ledEx = [{ symbol := "AAPL", qty := 6 }, { symbol := "MSFT", qty := 2 }] := by
  refine ⟨fun led => ⟨?_, ?_, ?_, ?_⟩, by decide⟩
  · rw [port, portReference]
    congr 1
    apply List.filterMap_congr
    intro s hs
    simp only [foldQty_replay_eq_netQty led s]
  · have hp : (port led).Pairwise symLEP := by
      rw [port]
      exact List.sorted_insertionSort symLEP _
    exact hp.imp (fun h => (strLE_iff_le _ _).mp h)
  · intro p hp
    rw [port, List.mem_insertionSort, List.mem_filterMap] at hp
    obtain ⟨s, hs, hfs⟩ := hp
    simp only [foldQty_replay_eq_netQty led s] at hfs
    by_cases h0 : netQty (tradesFor led s) = 0
    · rw [if_pos h0] at hfs
      exact nomatch hfs
    · rw [if_neg h0] at hfs
      cases hfs
      rw [ledgerSymbols] at hs
      exact ⟨rfl, h0, List.mem_dedup.mp hs⟩
  · intro s hs hn
    refine ⟨{ symbol := s, qty := netQty (tradesFor led s) }, ?_, rfl, rfl⟩
    rw [port, List.mem_insertionSort, List.mem_filterMap]
    refine ⟨s, ?_, ?_⟩
    · rw [ledgerSymbols]
      exact List.mem_dedup.mpr hs
    · simp only [foldQty_replay_eq_netQty led s]
      rw [if_neg hn]

theorem port_matches_reference_witness :
    ∃ p, p ∈ port ledEx ∧ p.symbol = "AAPL" ∧ p.qty = netQty (tradesFor ledEx "AAPL") :=
  (port_matches_reference.1 ledEx).2.2.2 "AAPL" (by decide) (by decide)

theorem netQty_nil : netQty [] = 0 := rfl

theorem netQty_cons (t : TradeRecord) (ts : List TradeRecord) :
    netQty (t :: ts) = signedQty t + netQty ts := by
  simp [netQty]

theorem mem_replayFlags {i : Nat} : ∀ (held : Int) (l : List (Nat × TradeRecord)),
    i ∈ replayFlags held l ↔
      ∃ pre t suf, l = pre ++ (i, t) :: suf ∧ t.side = Side.sell ∧
        held + netQty (pre.map Prod.snd) - t.quantity < 0
  | held, [] => by
    constructor
    · intro h
      exact absurd h (List.not_mem_nil i)
    · rintro ⟨pre, t, suf, h, _, _⟩
      cases pre <;> exact nomatch h
  | held, (j, u) :: rest => by
    cases hu : u.side with
    | buy =>
      simp only [replayFlags, hu]
      rw [mem_replayFlags (held + u.quantity) rest]
      constructor
      · rintro ⟨pre, t, suf, heq, hsell, hlt⟩
        refine ⟨(j, u) :: pre, t, suf, by rw [List.cons_append, heq], hsell, ?_⟩
        rw [List.map_cons, netQty_cons]
        have hsu : signedQty u = u.quantity := by simp only [signedQty, hu]
        rw [hsu]
        omega
      · rintro ⟨pre, t, suf, heq, hsell, hlt⟩
        cases pre with
        | nil =>
          rw [List.nil_append] at heq
          obtain ⟨hp, hrest⟩ := List.cons.inj heq
          obtain ⟨hj, hut⟩ := Prod.mk.inj hp
          rw [← hut, hu] at hsell
          exact nomatch hsell
        | cons p pre' =>
          rw [List.cons_append] at heq
          obtain ⟨hp, hrest⟩ := List.cons.inj heq
          refine ⟨pre', t, suf, hrest, hsell, ?_⟩
          rw [← hp, List.map_cons, netQty_cons] at hlt
          have hsu : signedQty u = u.quantity := by simp only [signedQty, hu]
          rw [hsu] at hlt
          omega
    | sell =>
      simp only [replayFlags, hu]
      rw [List.mem_append, mem_replayFlags (held - u.quantity) rest]
      constructor
      · rintro (hin | ⟨pre, t, suf, heq, hsell, hlt⟩)
        · by_cases hneg : held - u.quantity < 0
          · rw [if_pos hneg, List.mem_singleton] at hin
            subst hin
            exact ⟨[], u, rest, rfl, hu, by rw [List.map_nil, netQty_nil]; omega⟩
          · rw [if_neg hneg] at hin
            exact absurd hin (List.not_mem_nil i)
        · refine ⟨(j, u) :: pre, t, suf, by rw [List.cons_append, heq], hsell, ?_⟩
          rw [List.map_cons, netQty_cons]
          have hsu : signedQty u = -u.quantity := by simp only [signedQty, hu]
          rw [hsu]
          omega
      · rintro ⟨pre, t, suf, heq, hsell, hlt⟩
        cases pre with
        | nil =>
          rw [List.nil_append] at heq
          obtain ⟨hp, hrest⟩ := List.cons.inj heq
          obtain ⟨hj, hut⟩ := Prod.mk.inj hp
          left
          rw [List.map_nil, netQty_nil, ← hut] at hlt
          rw [if_pos (by omega : held - u.quantity < 0), List.mem_singleton]
          exact hj.symm
        | cons p pre' =>
          rw [List.cons_append] at heq
          obtain ⟨hp, hrest⟩ := List.cons.inj heq
          right
          refine ⟨pre', t, suf, hrest, hsell, ?_⟩
          rw [← hp, List.map_cons, netQty_cons] at hlt
          have hsu : signedQty u = -u.quantity := by simp only [signedQty, hu]
          rw [hsu] at hlt
          omega

theorem exists_pair_of_mem_replayFlags {i : Nat} {held : Int}
    {l : List (Nat × TradeRecord)} (h : i ∈ replayFlags held l) :
    ∃ t, (i, t) ∈ l ∧ t.side = Side.sell := by
  obtain ⟨pre, t, suf, rfl, hsell, _⟩ := (mem_replayFlags held l).mp h
  exact ⟨t, List.mem_append.mpr (Or.inr (List.mem_cons_self _ _)), hsell⟩

theorem mem_oversoldIdx {led : Ledger} {i : Nat} :
    i ∈ oversoldIdx led ↔ ∃ s ∈ ledgerSymbols led, i ∈ replayFlags 0 (replayOrder led s) := by
  rw [oversoldIdx]
  exact List.mem_flatMap

theorem mem_enum_of_mem_oversoldIdx {led : Ledger} {i : Nat} (h : i ∈ oversoldIdx led) :
    ∃ t, (i, t) ∈ led.enum ∧ t.side = Side.sell := by
  obtain ⟨s, hs, hf⟩ := mem_oversoldIdx.mp h
  obtain ⟨t, ht, hsell⟩ := exists_pair_of_mem_replayFlags hf
  have ht' : (i, t) ∈ groupFor led s := by
    rw [replayOrder] at ht
    exact (List.mem_insertionSort replayLEP).mp ht
  rw [groupFor] at ht'
  exact ⟨t, (List.mem_filter.mp ht').1, hsell⟩

theorem enum_length_eq (led : Ledger) : led.enum.length = led.length := by
  rw [List.enum_eq_enumFrom]
  exact List.enumFrom_length

/-- C7: `Check()` fails (with a typed error, producing no counts) exactly
when a stored section is structurally unreadable or unparsable; over
parsed storage the call succeeds with counts never above the stored
totals, and each kind of semantic inconsistency (invalid trade record,
oversell, invalid stock record) makes the corresponding count strictly
lower than the stored total. -/
theorem check_structural_vs_semantic (raw : RawStore) (reg : Registry) (led : Ledger) :
    ((∃ e, checkStore raw = Except.error e) ↔
      raw.stocksFile = StoredFile.corrupt ∨ raw.tradesFile = StoredFile.corrupt)
    ∧ checkStore { stocksFile := StoredFile.records reg, tradesFile := StoredFile.records led }
        = Except.ok (checkCounts reg led)
    ∧ (checkCounts reg led).1 ≤ led.length
    ∧ (checkCounts reg led).2 ≤ reg.length
    ∧ ((∃ t ∈ led, tradeValid reg t = false) → (checkCounts reg led).1 < led.length)
    ∧ (oversoldIdx led ≠ [] → (checkCounts reg led).1 < led.length)
    ∧ ((∃ r ∈ reg, stockValid reg r = false) → (checkCounts reg led).2 < reg.length) := by
  have hfst : (checkCounts reg led).1 = (led.enum.filter fun p =>
      tradeValid reg p.2 && !((oversoldIdx led).contains p.1)).length := rfl
  have hsnd : (checkCounts reg led).2 = (reg.filter fun r => stockValid reg r).length := rfl
  have hle1 : (checkCounts reg led).1 ≤ led.length := by
    rw [hfst, ← enum_length_eq led]
    exact List.length_filter_le _ _
  have hle2 : (checkCounts reg led).2 ≤ reg.length := by
    rw [hsnd]
    exact List.length_filter_le _ _
  refine ⟨?_, rfl, hle1, hle2, ?_, ?_, ?_⟩
  · obtain ⟨sf, tf⟩ := raw
    cases sf <;> cases tf <;>
      simp [checkStore, loadFile, bind, Except.bind, pure, Except.pure]
  · rintro ⟨t, ht, hbad⟩
    obtain ⟨n, hn, hget⟩ := List.mem_iff_getElem.mp ht
    have hpair : (n, t) ∈ led.enum := by
      rw [List.mk_mem_enum_iff_getElem?, List.getElem?_eq_getElem hn, hget]
    refine lt_of_le_of_ne hle1 (fun hEq => ?_)
    have hEq' : (led.enum.filter fun p =>
        tradeValid reg p.2 && !((oversoldIdx led).contains p.1)).length = led.enum.length := by
      rw [← hfst, hEq, enum_length_eq led]
    have hall := List.filter_length_eq_length.mp hEq' (n, t) hpair
    rw [Bool.and_eq_true] at hall
    rw [show tradeValid reg (n, t).2 = tradeValid reg t from rfl, hbad] at hall
    exact nomatch hall.1
  · intro hne
    obtain ⟨i, hi⟩ := List.exists_mem_of_ne_nil (oversoldIdx led) hne
    obtain ⟨t, hpair, _⟩ := mem_enum_of_mem_oversoldIdx hi
    refine lt_of_le_of_ne hle1 (fun hEq => ?_)
    have hEq' : (led.enum.filter fun p =>
        tradeValid reg p.2 && !((oversoldIdx led).contains p.1)).length = led.enum.length := by
      rw [← hfst, hEq, enum_length_eq led]
    have hall := List.filter_length_eq_length.mp hEq' (i, t) hpair
    rw [Bool.and_eq_true] at hall
    have hcont : (oversoldIdx led).contains i = true := List.elem_iff.mpr hi
    rw [show ((oversoldIdx led).contains (i, t).1) = ((oversoldIdx led).contains i) from rfl,
      hcont] at hall
    exact nomatch hall.2
  · rintro ⟨r, hr, hbad⟩
    refine lt_of_le_of_ne hle2 (fun hEq => ?_)
    have hall := List.filter_length_eq_length.mp (hsnd ▸ hEq) r hr
    rw [hbad] at hall
    exact nomatch hall

theorem check_structural_vs_semantic_witness :
    (checkCounts regEx (ledEx ++ [tradeUnknown])).1 < (ledEx ++ [tradeUnknown]).length
    ∧ (∃ e, checkStore { stocksFile := StoredFile.corrupt, tradesFile := StoredFile.records [] }
        = Except.error e) :=
  ⟨(check_structural_vs_semantic
      { stocksFile := StoredFile.corrupt, tradesFile := StoredFile.records [] }
      regEx (ledEx ++ [tradeUnknown])).2.2.2.2.1 ⟨tradeUnknown, by decide, by decide⟩,
   ((check_structural_vs_semantic
      { stocksFile := StoredFile.corrupt, tradesFile := StoredFile.records [] }
      regEx (ledEx ++ [tradeUnknown])).1).mpr (Or.inl rfl)⟩

/-- C8: during `Check()` each stock's trades are replayed as a permutation
of its group arranged in timestamp order with ties broken by on-disk
order, and the flagged oversells are exactly the sells whose quantity
exceeds the running held quantity accumulated from the replay prefix. -/
theorem oversell_replay_spec (led : Ledger) (sym : String) (i : Nat) :
    (replayOrder led sym).Perm (groupFor led sym)
    ∧ (replayOrder led sym).Sorted replayLEP
    ∧ (i ∈ replayFlags 0 (replayOrder led sym) ↔
        ∃ pre t suf, replayOrder led sym = pre ++ (i, t) :: suf ∧ t.side = Side.sell ∧
          netQty (pre.map Prod.snd) - t.quantity < 0)
    ∧ (i ∈ oversoldIdx led ↔ ∃ s ∈ ledgerSymbols led, i ∈ replayFlags 0 (replayOrder led s)) := by
  refine ⟨List.perm_insertionSort _ _, List.sorted_insertionSort _ _, ?_, mem_oversoldIdx⟩
  rw [mem_replayFlags]
  constructor
  · rintro ⟨pre, t, suf, h1, h2, h3⟩
    exact ⟨pre, t, suf, h1, h2, by omega⟩
  · rintro ⟨pre, t, suf, h1, h2, h3⟩
    exact ⟨pre, t, suf, h1, h2, by omega⟩

/-- C6 (amended): over an otherwise fully valid (Registry, Ledger),
appending one trade whose symbol does not resolve leaves the
validated-trade count equal to the count with that trade absent — that
is, exactly one below the new stored-trade total — and the
validated-stock count unchanged. -/
theorem check_unknown_symbol (reg : Registry) (led : Ledger) (t' : TradeRecord)
    (_hreg : registryWellFormed reg)
    (htr : ∀ t ∈ led, tradeValid reg t = true)
    (hov : oversoldIdx led = [])
    (hunk : lookupStock reg t'.symbol = none) :
    (checkCounts reg (led ++ [t'])).1 = (led ++ [t']).length - 1
    ∧ (checkCounts reg (led ++ [t'])).1 = (checkCounts reg led).1
    ∧ (checkCounts reg (led ++ [t'])).2 = (checkCounts reg led).2 := by
  have hsymne : ∀ t ∈ led, t.symbol ≠ t'.symbol := by
    intro t ht hEq
    have h1 := htr t ht
    rw [tradeValid, Bool.and_eq_true, Bool.and_eq_true] at h1
    have h2 := h1.1.1
    rw [hEq, hunk] at h2
    exact nomatch h2
  have henum : (led ++ [t']).enum = led.enum ++ [(led.length, t')] := by
    rw [List.enum_append]
    rfl
  have hgroup_ne : ∀ s, s ≠ t'.symbol → groupFor (led ++ [t']) s = groupFor led s := by
    intro s hs
    rw [groupFor, groupFor, henum, List.filter_append]
    have hf : List.filter (fun p => p.2.symbol == s) [(led.length, t')] = [] := by
      rw [List.filter_eq_nil_iff]
      intro p hp
      rw [List.mem_singleton] at hp
      subst hp
      exact fun hb => hs (beq_iff_eq.mp hb).symm
    rw [hf, List.append_nil]
  have hgroup_eq : groupFor (led ++ [t']) t'.symbol = [(led.length, t')] := by
    rw [groupFor, henum, List.filter_append]
    have h1 : List.filter (fun p => p.2.symbol == t'.symbol) led.enum = [] := by
      rw [List.filter_eq_nil_iff]
      intro p hp hb
      exact hsymne p.2 (List.snd_mem_of_mem_enum hp) (beq_iff_eq.mp hb)
    have h2 : List.filter (fun p => p.2.symbol == t'.symbol) [(led.length, t')]
        = [(led.length, t')] := by
      simp
    rw [h1, h2, List.nil_append]
  have hov' : ∀ i ∈ oversoldIdx (led ++ [t']), i = led.length := by
    intro i hi
    obtain ⟨s, hs, hf⟩ := mem_oversoldIdx.mp hi
    by_cases hcase : s = t'.symbol
    · subst hcase
      rw [replayOrder, hgroup_eq] at hf
      rw [show List.insertionSort replayLEP [(led.length, t')] = [(led.length, t')] from rfl] at hf
      obtain ⟨t, htt, _⟩ := exists_pair_of_mem_replayFlags hf
      rw [List.mem_singleton] at htt
      exact (Prod.mk.inj htt).1
    · exfalso
      rw [replayOrder, hgroup_ne s hcase, ← replayOrder] at hf
      have hs' : s ∈ ledgerSymbols led := by
        rw [ledgerSymbols, List.mem_dedup] at hs ⊢
        rw [List.map_append] at hs
        rcases List.mem_append.mp hs with h | h
        · exact h
        · simp only [List.map_cons, List.map_nil, List.mem_singleton] at h
          exact absurd h hcase
      have hmem : i ∈ oversoldIdx led := mem_oversoldIdx.mpr ⟨s, hs', hf⟩
      rw [hov] at hmem
      exact absurd hmem (List.not_mem_nil i)
  have hfst : (checkCounts reg (led ++ [t'])).1 = led.length := by
    show ((led ++ [t']).enum.filter fun p =>
        tradeValid reg p.2 && !((oversoldIdx (led ++ [t'])).contains p.1)).length = led.length
    rw [henum, List.filter_append]
    have hA : led.enum.filter (fun p =>
        tradeValid reg p.2 && !((oversoldIdx (led ++ [t'])).contains p.1)) = led.enum := by
      rw [List.filter_eq_self]
      intro p hp
      rw [Bool.and_eq_true]
      refine ⟨htr p.2 (List.snd_mem_of_mem_enum hp), ?_⟩
      have hcf : ((oversoldIdx (led ++ [t'])).contains p.1) = false := by
        cases hcb : ((oversoldIdx (led ++ [t'])).contains p.1) with
        | false => rfl
        | true =>
          have hm := hov' p.1 (List.elem_iff.mp hcb)
          have hlt := List.fst_lt_of_mem_enum hp
          omega
      rw [hcf]
      rfl
    have hB : List.filter (fun p =>
        tradeValid reg p.2 && !((oversoldIdx (led ++ [t'])).contains p.1))
        [(led.length, t')] = [] := by
      have hbad : tradeValid reg t' = false := by
        rw [tradeValid, hunk]
        rfl
      rw [List.filter_eq_nil_iff]
      intro p hp
      rw [List.mem_singleton] at hp
      subst hp
      rw [show tradeValid reg ((led.length, t') : Nat × TradeRecord).2
          = tradeValid reg t' from rfl, hbad]
      exact fun hb => nomatch hb
    rw [hA, hB, List.append_nil, enum_length_eq led]
  refine ⟨?_, ?_, rfl⟩
  · rw [hfst, List.length_append]
    rfl
  · rw [hfst, checkCounts_fst_of_valid htr hov]

theorem check_unknown_symbol_witness :
    (checkCounts regEx (ledEx ++ [tradeUnknown])).1 = (ledEx ++ [tradeUnknown]).length - 1 :=
  (check_unknown_symbol regEx ledEx tradeUnknown (by decide) (by decide) (by decide) (by decide)).1

/-- C6 as stated is false on the model: appending the unknown-symbol trade
to the valid example ledger leaves the validated-trade count at 3, equal
to the count with the trade absent, not lower by one than it. -/
theorem check_unknown_symbol_cx :
    registryWellFormed regEx
    ∧ (∀ t ∈ ledEx, tradeValid regEx t = true)
    ∧ oversoldIdx ledEx = []
    ∧ lookupStock regEx tradeUnknown.symbol = none
    ∧ (checkCounts regEx ledEx).1 = 3
    ∧ (checkCounts regEx (ledEx ++ [tradeUnknown])).1 = 3
    ∧ ¬ ((checkCounts regEx (ledEx ++ [tradeUnknown])).1
        = (checkCounts regEx ledEx).1 - 1) :=
  ⟨by decide, by decide, by decide, by decide, by decide, by decide, by decide⟩

end Lupo
